import Mathlib

/-! Shallow embedding of the tesla lite overlay core (tesla_lite.hpp):
pixel compositing, text measurement, glyph cache keys, element layout,
focus handling and the navigation stack, together with theorems checking
the specification of each part. -/

/-- Color models the 16-bit RGBA4444 color struct of the source: four 4-bit
channels r, g, b, a. Fields are natural numbers; the packing constructor
truncates to 4 bits exactly as assignment to a 4-bit bitfield does. -/
structure Color where
  r : Nat
  g : Nat
  b : Nat
  a : Nat
deriving DecidableEq, Repr

/-- Color.make r g b a mirrors the constructor Color(u8 r, u8 g, u8 b, u8 a):
each component is stored into a 4-bit bitfield, hence reduced mod 16. -/
def Color.make (r g b a : Nat) : Color := ⟨r % 16, g % 16, b % 16, a % 16⟩

/-- The framebuffer cell index used by the renderer: y * FramebufferWidth + x. -/
def pixelOffset (W x y : Nat) : Nat := y * W + x

/-- Renderer setPixel: bounds-checked direct overwrite of one framebuffer
cell. The framebuffer is modelled as a row-major list of colors of length
FramebufferWidth * FramebufferHeight. -/
def setPixel (W H : Nat) (fb : List Color) (x y : Nat) (c : Color) : List Color :=
  if W ≤ x ∨ H ≤ y then fb
  else fb.set (pixelOffset W x y) c

/-- blendPixel computes the new value written by setPixelBlend: per color
channel (dst * (15 - srcA) + src * srcA) >> 4 with inv_a = 15 - srcA, and
the destination alpha kept as the fourth component. -/
def blendPixel (dst c : Color) : Color :=
  Color.make ((dst.r * (15 - c.a) + c.r * c.a) / 16)
    ((dst.g * (15 - c.a) + c.g * c.a) / 16)
    ((dst.b * (15 - c.a) + c.b * c.a) / 16)
    dst.a

/-- Renderer setPixelBlend: returns the framebuffer unchanged when the
coordinate is out of bounds or the source alpha is zero, otherwise blends
into the destination cell via blendPixel. -/
def setPixelBlend (W H : Nat) (fb : List Color) (x y : Nat) (c : Color) : List Color :=
  if W ≤ x ∨ H ≤ y ∨ c.a = 0 then fb
  else fb.set (pixelOffset W x y)
    (blendPixel (fb.getD (pixelOffset W x y) (Color.make 0 0 0 0)) c)

/-- NavState models the Overlay navigation stack: the list of owned Screens
with the head as stack top, together with the list of Screens destroyed so
far (the delete calls issued). The Screen type is abstract. -/
structure NavState (G : Type) where
  stack : List G
  destroyed : List G
deriving DecidableEq, Repr

/-- Overlay pushGui: push the new Screen on the stack top; nothing is
destroyed. -/
def pushGui {G : Type} (s : NavState G) (g : G) : NavState G :=
  { s with stack := g :: s.stack }

/-- Overlay changeGui: when the stack is nonempty, delete the top Screen and
pop it, then push the new Screen; on an empty stack just push. -/
def changeGui {G : Type} (s : NavState G) (g : G) : NavState G :=
  match s.stack with
  | [] => { s with stack := [g] }
  | t :: rest => { stack := g :: rest, destroyed := t :: s.destroyed }

/-- Dropping the stack top, the pop step used by the navigation claim. -/
def popTop {G : Type} (s : NavState G) : NavState G :=
  { s with stack := s.stack.tail }

/-- Overlay getCurrentGui: the stack top, or none when the stack is empty. -/
def getCurrentGui {G : Type} (s : NavState G) : Option G :=
  s.stack.head?

/-- FocusState models the focus bookkeeping of a Screen (Gui): the focused
flag of every Element in its tree, as a boolean valuation on an abstract
Element type, and the non owning pointer to the currently focused Element. -/
structure FocusState (E : Type) where
  focused : E → Bool
  ptr : Option E

/-- The initial focus state of a Screen: no Element focused, null pointer. -/
def initFocus (E : Type) : FocusState E :=
  ⟨fun _ => false, none⟩

/-- clearFocus models the first half of Gui requestFocus: if a previously
focused Element is recorded, clear its focused flag. -/
def clearFocus {E : Type} [DecidableEq E] (f : E → Bool) : Option E → E → Bool
  | none => f
  | some p => fun z => if z = p then false else f z

/-- setFocusFlag models the second half of Gui requestFocus: if the newly
recorded Element is non null, set its focused flag. -/
def setFocusFlag {E : Type} [DecidableEq E] (f : E → Bool) : Option E → E → Bool
  | none => f
  | some q => fun z => if z = q then true else f z

/-- Gui requestFocus: clear the focused flag of the previously recorded
Element if any, record the new pointer (possibly null), and set the focused
flag of the new Element if non null. -/
def requestFocus {E : Type} [DecidableEq E] (s : FocusState E) (e : Option E) :
    FocusState E :=
  ⟨setFocusFlag (clearFocus s.focused s.ptr) e, e⟩

/-- Every Element whose focused flag is set is the recorded pointer; this is
the invariant maintained by requestFocus. -/
def FocusInv {E : Type} (s : FocusState E) : Prop :=
  ∀ z, s.focused z = true → s.ptr = some z

/-- FontManager getOrCreateGlyph key packing: u64(character) << 32 merged by
bitwise or with fontSize, and the top bit (bit 63) set by a further bitwise
or when monospace. The u32 range of character and fontSize is modelled by
reduction mod 2 ^ 32. -/
def glyphKey (character : Nat) (monospace : Bool) (fontSize : Nat) : Nat :=
  let key := ((character % 2 ^ 32) * 2 ^ 32) ||| (fontSize % 2 ^ 32)
  if monospace then key ||| 2 ^ 63 else key

/-- GlyphCache models the static glyph cache map of FontManager: an
association list from packed 64-bit keys to cached glyphs, where each cached
shared glyph pointer is stood for by the identifier it was created with, and
a counter supplying fresh identifiers for newly rasterized glyphs. -/
structure GlyphCache where
  entries : List (Nat × Nat)
  nextId : Nat
deriving DecidableEq, Repr

/-- FontManager getOrCreateGlyph: look up the packed key; on a hit return
the cached entry unchanged, on a miss rasterize a new glyph (a fresh
identifier), store it under the key and return it. -/
def getOrCreateGlyph (s : GlyphCache) (character : Nat) (monospace : Bool)
    (fontSize : Nat) : Nat × GlyphCache :=
  match s.entries.lookup (glyphKey character monospace fontSize) with
  | some g => (g, s)
  | none =>
      (s.nextId,
       ⟨(glyphKey character monospace fontSize, s.nextId) :: s.entries,
        s.nextId + 1⟩)

/-- Well-formedness of the cache: the stored glyph identifiers are pairwise
distinct and all below the fresh counter. -/
def CacheWF (s : GlyphCache) : Prop :=
  (s.entries.map Prod.snd).Nodup ∧ ∀ p ∈ s.entries, p.2 < s.nextId

/-- Reduction to the u16 range, the truncation applied when a value is
stored into a u16 coordinate or size field. -/
def u16 (n : Nat) : Nat := n % 65536

/-- Conversion of a signed intermediate value to u16, as C performs when an
int expression is passed to a u16 parameter. -/
def u16I (i : Int) : Nat := (i % 65536).toNat

/-- Elem is the closed element vocabulary of the source: a leaf item (an
Element subclass whose draw is abstract, carrying its current bounds and in
particular its fixed m_height consulted by List layout), a List with its
scroll offset and owned children, and an OverlayFrame with title, subtitle
and optional content. Every node stores its current bounds x, y, w, h in
u16 fields exactly as the Element base class does. -/
inductive Elem where
  | item (x y w h : Nat)
  | list (x y w h : Nat) (scrollOffset : Int) (items : List Elem)
  | frame (x y w h : Nat) (title subtitle : String) (content : Option Elem)
deriving Repr

/-- Element getHeight: returns the stored m_height field. -/
def Elem.getHeight : Elem → Nat
  | .item _ _ _ h => h
  | .list _ _ _ h _ _ => h
  | .frame _ _ _ h _ _ _ => h

/-- Element getX. -/
def Elem.getX : Elem → Nat
  | .item x _ _ _ => x
  | .list x _ _ _ _ _ => x
  | .frame x _ _ _ _ _ _ => x

/-- Element getY. -/
def Elem.getY : Elem → Nat
  | .item _ y _ _ => y
  | .list _ y _ _ _ _ => y
  | .frame _ y _ _ _ _ _ => y

/-- Element getWidth. -/
def Elem.getWidth : Elem → Nat
  | .item _ _ w _ => w
  | .list _ _ w _ _ _ => w
  | .frame _ _ w _ _ _ _ => w

mutual

/-- Element layout. The base behavior stores the given rectangle into the
u16 bounds fields. List layout additionally walks its children with a
running u16 cursor currY starting at y - scrollOffset, laying each child
out at (x, currY, w, child.getHeight()) and advancing currY by the height
of the child just laid out. OverlayFrame layout stores its own bounds and
lays its content out at (x + 20, y + 100, w - 40, h - 150). -/
def Elem.layout : Elem → Nat → Nat → Nat → Nat → Elem
  | .item _ _ _ _, px, py, pw, ph => .item (u16 px) (u16 py) (u16 pw) (u16 ph)
  | .list _ _ _ _ s its, px, py, pw, ph =>
      .list (u16 px) (u16 py) (u16 pw) (u16 ph) s
        (layoutItems its (u16 px) (u16I ((u16 py : Int) - s)) (u16 pw))
  | .frame _ _ _ _ t st c, px, py, pw, ph =>
      .frame (u16 px) (u16 py) (u16 pw) (u16 ph) t st
        (match c with
         | none => none
         | some e => some (e.layout (u16 (u16 px + 20)) (u16 (u16 py + 100))
             (u16I ((u16 pw : Int) - 40)) (u16I ((u16 ph : Int) - 150))))

/-- The child walk of List layout. -/
def layoutItems : List Elem → Nat → Nat → Nat → List Elem
  | [], _, _, _ => []
  | e :: rest, x, currY, w =>
      let e2 := e.layout x currY w e.getHeight
      e2 :: layoutItems rest x (u16 (currY + e2.getHeight)) w

end

/-- DrawCmd records one renderer call issued while drawing the tree. -/
inductive DrawCmd where
  | rect (x y w h : Int) (c : Color)
  | text (s : String) (mono : Bool) (x y : Int) (fontSize : Nat) (c : Color)
deriving DecidableEq, Repr

/-- The style colors used by OverlayFrame draw. -/
def ColorFrameBackground : Color := Color.make 0 0 0 13

/-- The title text color. -/
def ColorText : Color := Color.make 15 15 15 15

/-- The subtitle text color. -/
def ColorDescription : Color := Color.make 10 10 10 15

mutual

/-- Element draw, as the trace of renderer calls. The leaf item draw is
pure virtual in the source (subclass specific) and contributes no trace
here; List draw draws each child in order; OverlayFrame draw paints the
full framebuffer background rectangle, the title at (20, 50) with font size
32, the subtitle at (20, 85) with font size 15, and then its content. -/
def Elem.draw (fbW fbH : Nat) : Elem → List DrawCmd
  | .item _ _ _ _ => []
  | .list _ _ _ _ _ its => drawItems fbW fbH its
  | .frame _ _ _ _ t st c =>
      DrawCmd.rect 0 0 (fbW : Int) (fbH : Int) ColorFrameBackground ::
      DrawCmd.text t false 20 50 32 ColorText ::
      DrawCmd.text st false 20 85 15 ColorDescription ::
      (match c with
       | none => []
       | some e => e.draw fbW fbH)

/-- The child walk of List draw. -/
def drawItems (fbW fbH : Nat) : List Elem → List DrawCmd
  | [] => []
  | e :: rest => e.draw fbW fbH ++ drawItems fbW fbH rest

end

/-- The bounds of the children of a List node. -/
def Elem.childBounds : Elem → List (Nat × Nat × Nat × Nat)
  | .list _ _ _ _ _ its =>
      its.map (fun e => (e.getX, e.getY, e.getWidth, e.getHeight))
  | _ => []

/-- The position of the first item of the content List of an OverlayFrame. -/
def firstContentItemPos : Elem → Option (Nat × Nat)
  | .frame _ _ _ _ _ _ (some (.list _ _ _ _ _ (e :: _))) =>
      some (e.getX, e.getY)
  | _ => none

/-- The screen tree of claim C4: an OverlayFrame with title "Title" and
subtitle "Sub" whose content is a List of three items of fixed heights. -/
def c4Tree (h1 h2 h3 : Nat) : Elem :=
  .frame 0 0 0 0 "Title" "Sub"
    (some (.list 0 0 0 0 0 [.item 0 0 0 h1, .item 0 0 0 h2, .item 0 0 0 h3]))

/-- Byte access into the modelled C string: reading past the end yields the
null terminator, as c_str guarantees, and every byte is a u8. -/
def byteAt (b : List Nat) (i : Nat) : Nat := b.getD i 0 % 256

/-- hlp decode_utf8: decode one UTF-8 code point from the bytes at the
cursor, returning the code point and the consumed length, or none (the
source returns -1) on an invalid lead byte or continuation byte. The bit
operations of the source are rendered arithmetically for u8 values: masking
with 0xC0 and comparing to 0x80 is division by 64 equal to 2, masking with
0x3F, 0x1F, 0x0F, 0x07 is mod 64, 32, 16, 8, and shifts are products. -/
def decode_utf8 (b : List Nat) : Option (Nat × Nat) :=
  let c := byteAt b 0
  if c < 128 then some (c, 1)
  else if c < 194 then none
  else if c < 224 then
    if byteAt b 1 / 64 ≠ 2 then none
    else some ((c % 32) * 64 + byteAt b 1 % 64, 2)
  else if c < 240 then
    if byteAt b 1 / 64 ≠ 2 ∨ byteAt b 2 / 64 ≠ 2 then none
    else some ((c % 16) * 4096 + (byteAt b 1 % 64) * 64 + byteAt b 2 % 64, 3)
  else if c < 245 then
    if byteAt b 1 / 64 ≠ 2 ∨ byteAt b 2 / 64 ≠ 2 ∨ byteAt b 3 / 64 ≠ 2 then none
    else some ((c % 8) * 262144 + (byteAt b 1 % 64) * 4096 +
      (byteAt b 2 % 64) * 64 + byteAt b 3 % 64, 4)
  else none

/-- The successfully decoded code point prefix of the byte string: the walk
shared by drawString and getTextDimensions, stopping at the terminator or
the first invalid sequence. The fuel argument bounds the recursion and is
instantiated with more than the byte length. -/
def codepointsAux : Nat → List Nat → List Nat
  | 0, _ => []
  | fuel + 1, b =>
    if byteAt b 0 = 0 then []
    else
      match decode_utf8 b with
      | none => []
      | some (cp, len) => cp :: codepointsAux fuel (b.drop len)

/-- The decoded code point prefix of a byte string. -/
def codepoints (b : List Nat) : List Nat := codepointsAux (b.length + 1) b

/-- Truncation toward zero of a rational, the conversion applied when a
float is stored into a signed integer. -/
def rtrunc (q : ℚ) : Int := if q < 0 then ⌈q⌉ else ⌊q⌋

/-- The horizontal cursor walk of drawString, recording currX at every
newline (where the cursor resets to x) and at the end of the walk: these
are the end-of-line cursor positions drawString reaches. The advance
currX += glyph xAdvance stores a float sum into the s32 cursor, modelled
by rtrunc over the exact rational advance values. -/
def drawStringAux (adv : Nat → ℚ) (x : Int) : Nat → List Nat → Int → List Int
  | 0, _, currX => [currX]
  | fuel + 1, b, currX =>
    if byteAt b 0 = 0 then [currX]
    else
      match decode_utf8 b with
      | none => [currX]
      | some (cp, len) =>
        if cp = 10 then currX :: drawStringAux adv x fuel (b.drop len) x
        else drawStringAux adv x fuel (b.drop len) (rtrunc ((currX : ℚ) + adv cp))

/-- The end-of-line cursor positions of drawString over a byte string. -/
def drawStringLineEnds (adv : Nat → ℚ) (x : Int) (b : List Nat) : List Int :=
  drawStringAux adv x (b.length + 1) b x

/-- Renderer getTextDimensions: the same decode walk, accumulating a u32
line width (the float advance added into the u32 is a floor for the
nonnegative values that arise), a running max line width updated at each
newline and once more at the end, and a height starting at fontSize and
growing by fontSize per newline. -/
def getTextDimensionsAux (adv : Nat → ℚ) (fontSize : Nat) :
    Nat → List Nat → Nat → Nat → Nat → Nat × Nat
  | 0, _, width, height, maxW => (max maxW width, height)
  | fuel + 1, b, width, height, maxW =>
    if byteAt b 0 = 0 then (max maxW width, height)
    else
      match decode_utf8 b with
      | none => (max maxW width, height)
      | some (cp, len) =>
        if cp = 10 then
          getTextDimensionsAux adv fontSize fuel (b.drop len) 0 (height + fontSize)
            (max maxW width)
        else
          getTextDimensionsAux adv fontSize fuel (b.drop len)
            ((⌊(width : ℚ) + adv cp⌋).toNat) height maxW

/-- Renderer getTextDimensions on a byte string: (maxLineWidth, height). -/
def getTextDimensions (adv : Nat → ℚ) (fontSize : Nat) (b : List Nat) : Nat × Nat :=
  getTextDimensionsAux adv fontSize (b.length + 1) b 0 fontSize 0

/-- The blended channel value stays below 16, so the 4-bit bitfield store
truncates nothing. -/
theorem blendChannel_lt (dst src al : Nat) (hd : dst < 16) (hs : src < 16)
    (ha : al < 16) : (dst * (15 - al) + src * al) / 16 < 16 := by
  have h1 : dst * (15 - al) ≤ 15 * (15 - al) :=
    Nat.mul_le_mul_right _ (by omega)
  have h2 : src * al ≤ 15 * al := Nat.mul_le_mul_right _ (by omega)
  have h3 : dst * (15 - al) + src * al ≤ 225 := by omega
  have h4 : (dst * (15 - al) + src * al) / 16 ≤ 225 / 16 := Nat.div_le_div_right h3
  omega

/-- With in-range channel values, blendPixel is exactly the untruncated
blend formula with destination alpha preserved. -/
theorem blendPixel_eq (dst c : Color) (hd : dst.r < 16 ∧ dst.g < 16 ∧ dst.b < 16 ∧ dst.a < 16)
    (hc : c.r < 16 ∧ c.g < 16 ∧ c.b < 16 ∧ c.a < 16) :
    blendPixel dst c =
      ⟨(dst.r * (15 - c.a) + c.r * c.a) / 16,
       (dst.g * (15 - c.a) + c.g * c.a) / 16,
       (dst.b * (15 - c.a) + c.b * c.a) / 16,
       dst.a⟩ := by
  obtain ⟨hd1, hd2, hd3, hd4⟩ := hd
  obtain ⟨hc1, hc2, hc3, hc4⟩ := hc
  unfold blendPixel Color.make
  have b1 := blendChannel_lt dst.r c.r c.a hd1 hc1 hc4
  have b2 := blendChannel_lt dst.g c.g c.a hd2 hc2 hc4
  have b3 := blendChannel_lt dst.b c.b c.a hd3 hc3 hc4
  congr 1 <;> omega

/-- Claim C1: for every in-bounds coordinate and every color with nonzero
alpha, setPixelBlend writes the destination cell with each of r, g, b equal
to (dst * (15 - srcA) + src * srcA) >> 4 and the destination alpha exactly
unchanged, leaving all other cells untouched; and for every color with zero
alpha it leaves the framebuffer entirely unchanged. -/
theorem C1_setPixelBlend_blend_formula (W H x y : Nat) (fb : List Color) (c : Color)
    (hx : x < W) (hy : y < H)
    (hc : c.r < 16 ∧ c.g < 16 ∧ c.b < 16 ∧ c.a < 16)
    (hd : (fb.getD (pixelOffset W x y) (Color.make 0 0 0 0)).r < 16 ∧
          (fb.getD (pixelOffset W x y) (Color.make 0 0 0 0)).g < 16 ∧
          (fb.getD (pixelOffset W x y) (Color.make 0 0 0 0)).b < 16 ∧
          (fb.getD (pixelOffset W x y) (Color.make 0 0 0 0)).a < 16) :
    (c.a ≠ 0 →
      setPixelBlend W H fb x y c =
        fb.set (pixelOffset W x y)
          ⟨((fb.getD (pixelOffset W x y) (Color.make 0 0 0 0)).r * (15 - c.a) + c.r * c.a) / 16,
           ((fb.getD (pixelOffset W x y) (Color.make 0 0 0 0)).g * (15 - c.a) + c.g * c.a) / 16,
           ((fb.getD (pixelOffset W x y) (Color.make 0 0 0 0)).b * (15 - c.a) + c.b * c.a) / 16,
           (fb.getD (pixelOffset W x y) (Color.make 0 0 0 0)).a⟩) ∧
    (c.a = 0 → setPixelBlend W H fb x y c = fb) := by
  constructor
  · intro ha
    unfold setPixelBlend
    rw [if_neg (by omega)]
    rw [blendPixel_eq _ _ hd hc]
  · intro ha
    unfold setPixelBlend
    rw [if_pos (by omega)]

/-- Witness for C1 at a concrete framebuffer, coordinate and color: blending
(8,9,10,5) over destination (1,1,1,1) gives (3,3,3,1), alpha kept. -/
theorem C1_witness :
    setPixelBlend 2 1 [Color.make 3 4 5 6, Color.make 1 1 1 1] 1 0 (Color.make 8 9 10 5) =
      [Color.make 3 4 5 6, Color.make 3 3 3 1] := by
  have h := (C1_setPixelBlend_blend_formula 2 1 1 0
    [Color.make 3 4 5 6, Color.make 1 1 1 1] (Color.make 8 9 10 5)
    (by decide) (by decide) (by decide) (by decide)).1 (by decide)
  rw [h]
  decide

/-- Claim C9: for every coordinate outside the surface bounds, setPixel and
setPixelBlend leave every cell of the surface unchanged; and for in-bounds
coordinates the cell index used, y * W + x, is always within W * H. -/
theorem C9_out_of_bounds_noop (W H x y : Nat) (fb : List Color) (c : Color) :
    (W ≤ x ∨ H ≤ y →
      setPixel W H fb x y c = fb ∧ setPixelBlend W H fb x y c = fb) ∧
    (x < W → y < H → pixelOffset W x y < W * H) := by
  constructor
  · intro h
    constructor
    · unfold setPixel
      rw [if_pos h]
    · unfold setPixelBlend
      rw [if_pos (by omega)]
  · intro hx hy
    unfold pixelOffset
    calc y * W + x < y * W + W := by omega
      _ = (y + 1) * W := by ring
      _ ≤ H * W := Nat.mul_le_mul_right _ (by omega)
      _ = W * H := Nat.mul_comm _ _

/-- Witness for C9 at a concrete out-of-bounds coordinate. -/
theorem C9_witness :
    setPixel 3 2 [Color.make 1 2 3 4] 3 5 (Color.make 9 9 9 9) = [Color.make 1 2 3 4] ∧
    setPixelBlend 3 2 [Color.make 1 2 3 4] 3 5 (Color.make 9 9 9 9) = [Color.make 1 2 3 4] :=
  (C9_out_of_bounds_noop 3 2 3 5 [Color.make 1 2 3 4] (Color.make 9 9 9 9)).1
    (Or.inl (by decide))

/-- Claim C2 counterexample: blending the fully opaque color (15,15,15,15)
over a zero pixel yields channel value 14, not the source value 15, so a
fully opaque blend does not replace the rgb channels exactly. -/
theorem C2_counterexample :
    ¬ ((setPixelBlend 1 1 [Color.make 0 0 0 7] 0 0 (Color.make 15 15 15 15)).getD 0
        (Color.make 0 0 0 0)).r = (Color.make 15 15 15 15).r := by
  decide

/-- Claim C2 (amended): for every in-bounds coordinate and fully opaque
source color (alpha = 15), setPixelBlend writes each rgb channel as
(src * 15) >> 4, which is the source value minus one whenever the source
channel is nonzero (and zero when it is zero), never an exact copy of a
nonzero source channel; the destination alpha is preserved. -/
theorem C2_opaque_blend (W H x y : Nat) (fb : List Color) (c : Color)
    (hx : x < W) (hy : y < H)
    (hc : c.r < 16 ∧ c.g < 16 ∧ c.b < 16)
    (ha : c.a = 15)
    (hd : (fb.getD (pixelOffset W x y) (Color.make 0 0 0 0)).r < 16 ∧
          (fb.getD (pixelOffset W x y) (Color.make 0 0 0 0)).g < 16 ∧
          (fb.getD (pixelOffset W x y) (Color.make 0 0 0 0)).b < 16 ∧
          (fb.getD (pixelOffset W x y) (Color.make 0 0 0 0)).a < 16) :
    setPixelBlend W H fb x y c =
      fb.set (pixelOffset W x y)
        ⟨c.r * 15 / 16, c.g * 15 / 16, c.b * 15 / 16,
         (fb.getD (pixelOffset W x y) (Color.make 0 0 0 0)).a⟩ ∧
    (c.r ≠ 0 → c.r * 15 / 16 = c.r - 1) ∧ (c.r = 0 → c.r * 15 / 16 = 0) := by
  obtain ⟨hc1, hc2, hc3⟩ := hc
  refine ⟨?_, ?_, ?_⟩
  · unfold setPixelBlend
    rw [if_neg (by omega)]
    rw [blendPixel_eq _ _ hd ⟨hc1, hc2, hc3, by omega⟩]
    rw [ha]
    simp
  · intro hr
    omega
  · intro hr
    omega

/-- Witness for C2 (amended) at a concrete framebuffer and color. -/
theorem C2_witness :
    setPixelBlend 1 1 [Color.make 2 3 4 9] 0 0 (Color.make 15 8 0 15) =
      [Color.make 2 3 4 9].set 0 ⟨15 * 15 / 16, 8 * 15 / 16, 0 * 15 / 16, 9⟩ :=
  (C2_opaque_blend 1 1 0 0 [Color.make 2 3 4 9] (Color.make 15 8 0 15)
    (by decide) (by decide) (by decide) (by decide) (by decide)).1

/-- Claim C5: pushGui A then pushGui B then one pop leaves A as the current
Screen; the push of B destroys nothing and leaves A in place beneath B; and
changeGui C while B is the top destroys exactly B, makes C current, and
leaves every Screen beneath (including A) untouched. -/
theorem C5_navigation_stack {G : Type} (s : NavState G) (A B C : G) :
    getCurrentGui (popTop (pushGui (pushGui s A) B)) = some A ∧
    (pushGui (pushGui s A) B).stack = B :: A :: s.stack ∧
    (pushGui (pushGui s A) B).destroyed = s.destroyed ∧
    (popTop (pushGui (pushGui s A) B)).stack = A :: s.stack ∧
    getCurrentGui (changeGui (pushGui (pushGui s A) B) C) = some C ∧
    (changeGui (pushGui (pushGui s A) B) C).destroyed = B :: s.destroyed ∧
    (changeGui (pushGui (pushGui s A) B) C).stack = C :: A :: s.stack := by
  refine ⟨rfl, rfl, rfl, rfl, rfl, rfl, rfl⟩

/-- Claim C10: changeGui on an empty stack destroys nothing and simply
pushes the given Screen, which becomes the only entry and the current
Screen. -/
theorem C10_changeGui_empty_stack {G : Type} (d : List G) (g : G) :
    changeGui ⟨[], d⟩ g = ⟨[g], d⟩ ∧
    getCurrentGui (changeGui ⟨[], d⟩ g) = some g := by
  exact ⟨rfl, rfl⟩

theorem clearFocus_eq_true {E : Type} [DecidableEq E] (s : FocusState E)
    (h : FocusInv s) (z : E) (hz : clearFocus s.focused s.ptr z = true) : False := by
  cases hp : s.ptr with
  | none =>
    rw [hp] at hz
    simp only [clearFocus] at hz
    have := h z hz
    rw [hp] at this
    exact Option.noConfusion this
  | some p =>
    rw [hp] at hz
    simp only [clearFocus] at hz
    by_cases hzp : z = p
    · rw [if_pos hzp] at hz
      exact Bool.noConfusion hz
    · rw [if_neg hzp] at hz
      have := h z hz
      rw [hp] at this
      exact hzp (Option.some.inj this).symm

theorem requestFocus_inv {E : Type} [DecidableEq E] (s : FocusState E)
    (e : Option E) (h : FocusInv s) : FocusInv (requestFocus s e) := by
  intro z hz
  cases e with
  | none =>
    exfalso
    simp only [requestFocus, setFocusFlag] at hz
    exact clearFocus_eq_true s h z hz
  | some q =>
    show some q = some z
    by_cases hzq : z = q
    · rw [hzq]
    · exfalso
      simp only [requestFocus, setFocusFlag] at hz
      rw [if_neg hzq] at hz
      exact clearFocus_eq_true s h z hz

theorem foldl_requestFocus_inv {E : Type} [DecidableEq E]
    (cs : List (Option E)) (s : FocusState E) (h : FocusInv s) :
    FocusInv (cs.foldl requestFocus s) := by
  induction cs generalizing s with
  | nil => exact h
  | cons c rest ih => exact ih _ (requestFocus_inv s c h)

/-- Claim C6: starting from a Screen with every Element unfocused, after any
sequence of requestFocus calls at most one Element reports a set focused
flag; and when the last call requested a non null Element, exactly that
Element is focused. -/
theorem C6_focus_uniqueness {E : Type} [DecidableEq E]
    (cs : List (Option E)) (e : E) :
    (∀ z w, (cs.foldl requestFocus (initFocus E)).focused z = true →
      (cs.foldl requestFocus (initFocus E)).focused w = true → z = w) ∧
    (requestFocus (cs.foldl requestFocus (initFocus E)) (some e)).focused e = true ∧
    (∀ z, (requestFocus (cs.foldl requestFocus (initFocus E)) (some e)).focused z = true →
      z = e) := by
  have h0 : FocusInv (initFocus E) := by
    intro z hz
    exact absurd hz (by simp [initFocus])
  have hinv := foldl_requestFocus_inv cs (initFocus E) h0
  refine ⟨?_, ?_, ?_⟩
  · intro z w hz hw
    have h1 := hinv z hz
    have h2 := hinv w hw
    rw [h1] at h2
    exact Option.some.inj h2
  · simp [requestFocus, setFocusFlag]
  · intro z hz
    have := requestFocus_inv _ (some e) hinv z hz
    exact (Option.some.inj this).symm

/-- Witness for C6 at a concrete call sequence over three Elements. -/
theorem C6_witness :
    (requestFocus (([some 0, none, some 1] : List (Option (Fin 3))).foldl requestFocus
      (initFocus (Fin 3))) (some 2)).focused 2 = true :=
  (C6_focus_uniqueness [some 0, none, some 1] (2 : Fin 3)).2.1

/-- A natural number below 2 to the n merged by bitwise or with a multiple
of 2 to the n is their sum: the occupied bit ranges are disjoint. -/
theorem lor_mul_two_pow (n : Nat) :
    ∀ a b : Nat, b < 2 ^ n → (a * 2 ^ n) ||| b = a * 2 ^ n + b := by
  induction n with
  | zero =>
    intro a b hb
    have hb0 : b = 0 := by omega
    subst hb0
    simp
  | succ n ih =>
    intro a b hb
    have hd : Nat.div2 b < 2 ^ n := by
      rw [Nat.div2_val]
      rw [pow_succ] at hb
      omega
    have h1 : a * 2 ^ (n + 1) = Nat.bit false (a * 2 ^ n) := by
      rw [Nat.bit_val, pow_succ]
      simp only [Bool.toNat_false, Nat.add_zero]
      ring
    calc a * 2 ^ (n + 1) ||| b
        = Nat.bit false (a * 2 ^ n) ||| Nat.bit (Nat.bodd b) (Nat.div2 b) := by
          rw [← h1, Nat.bit_decomp]
      _ = Nat.bit (false || Nat.bodd b) ((a * 2 ^ n) ||| Nat.div2 b) :=
          Nat.lor_bit false _ (Nat.bodd b) _
      _ = Nat.bit (Nat.bodd b) (a * 2 ^ n + Nat.div2 b) := by
          rw [ih a (Nat.div2 b) hd]
          simp
      _ = a * 2 ^ (n + 1) + b := by
          rw [Nat.bit_val]
          have hb2 := Nat.bodd_add_div2 b
          have h2 : 2 * (a * 2 ^ n + Nat.div2 b) =
              a * 2 ^ (n + 1) + 2 * Nat.div2 b := by
            rw [pow_succ]
            ring
          omega

/-- For in-range arguments the packed key is plain arithmetic. -/
theorem glyphKey_eq (character : Nat) (monospace : Bool) (fontSize : Nat)
    (hc : character < 2 ^ 31) (hf : fontSize < 2 ^ 32) :
    glyphKey character monospace fontSize =
      character * 2 ^ 32 + fontSize + (if monospace then 2 ^ 63 else 0) := by
  unfold glyphKey
  have h1 : character % 2 ^ 32 = character := Nat.mod_eq_of_lt (by omega)
  have h2 : fontSize % 2 ^ 32 = fontSize := Nat.mod_eq_of_lt hf
  rw [h1, h2, lor_mul_two_pow 32 character fontSize hf]
  cases monospace with
  | false => simp
  | true =>
    simp only [if_true]
    have hk : character * 2 ^ 32 + fontSize < 2 ^ 63 := by
      have hm : character * 2 ^ 32 ≤ (2 ^ 31 - 1) * 2 ^ 32 :=
        Nat.mul_le_mul_right _ (by omega)
      have he : (2 ^ 31 - 1) * 2 ^ 32 = 2 ^ 63 - 2 ^ 32 := by norm_num
      omega
    rw [Nat.lor_comm]
    have h3 := lor_mul_two_pow 63 1 (character * 2 ^ 32 + fontSize) hk
    rw [one_mul] at h3
    rw [h3]
    omega

theorem lookup_mem {l : List (Nat × Nat)} {k g : Nat}
    (h : l.lookup k = some g) : (k, g) ∈ l := by
  induction l with
  | nil => exact absurd h (by simp [List.lookup])
  | cons p rest ih =>
    obtain ⟨p1, p2⟩ := p
    rw [List.lookup] at h
    by_cases hk : k = p1
    · have hb : (k == p1) = true := beq_iff_eq.mpr hk
      rw [hb] at h
      simp only [Option.some.injEq] at h
      subst hk
      subst h
      exact List.mem_cons_self _ _
    · have hb : (k == p1) = false := beq_eq_false_iff_ne.mpr hk
      rw [hb] at h
      exact List.mem_cons_of_mem _ (ih h)

theorem nodup_snd_inj {l : List (Nat × Nat)}
    (h : (l.map Prod.snd).Nodup) :
    ∀ p ∈ l, ∀ q ∈ l, p.2 = q.2 → p = q := by
  induction l with
  | nil => intro p hp; exact absurd hp (by simp)
  | cons hd rest ih =>
    rw [List.map_cons, List.nodup_cons] at h
    intro p hp q hq hpq
    rcases List.mem_cons.mp hp with hp1 | hp2 <;>
      rcases List.mem_cons.mp hq with hq1 | hq2
    · rw [hp1, hq1]
    · exfalso
      apply h.1
      rw [← hp1, hpq]
      exact List.mem_map_of_mem _ hq2
    · exfalso
      apply h.1
      rw [← hq1, ← hpq]
      exact List.mem_map_of_mem _ hp2
    · exact ih h.2 p hp2 q hq2 hpq

theorem gocg_hit (s : GlyphCache) (c : Nat) (m : Bool) (f g : Nat)
    (h : s.entries.lookup (glyphKey c m f) = some g) :
    getOrCreateGlyph s c m f = (g, s) := by
  unfold getOrCreateGlyph
  rw [h]

theorem gocg_miss (s : GlyphCache) (c : Nat) (m : Bool) (f : Nat)
    (h : s.entries.lookup (glyphKey c m f) = none) :
    getOrCreateGlyph s c m f =
      (s.nextId,
       ⟨(glyphKey c m f, s.nextId) :: s.entries, s.nextId + 1⟩) := by
  unfold getOrCreateGlyph
  rw [h]

theorem getOrCreateGlyph_wf (s : GlyphCache) (c : Nat) (m : Bool) (f : Nat)
    (h : CacheWF s) : CacheWF (getOrCreateGlyph s c m f).2 := by
  cases hl : s.entries.lookup (glyphKey c m f) with
  | some g =>
    rw [gocg_hit s c m f g hl]
    exact h
  | none =>
    rw [gocg_miss s c m f hl]
    refine ⟨?_, ?_⟩
    · show ((((glyphKey c m f, s.nextId) :: s.entries).map Prod.snd)).Nodup
      rw [List.map_cons, List.nodup_cons]
      refine ⟨?_, h.1⟩
      intro hmem
      rcases List.mem_map.mp hmem with ⟨p, hp, hps⟩
      have := h.2 p hp
      omega
    · show ∀ p ∈ (glyphKey c m f, s.nextId) :: s.entries, p.2 < s.nextId + 1
      intro p hp
      rcases List.mem_cons.mp hp with h1 | h2
      · rw [h1]
        exact Nat.lt_succ_self _
      · have := h.2 p h2
        omega

theorem glyphKey_inj (cA cB fA fB : Nat) (mA mB : Bool)
    (hcA : cA < 2 ^ 21) (hcB : cB < 2 ^ 21) (hfA : fA < 2 ^ 32) (hfB : fB < 2 ^ 32)
    (hk : glyphKey cA mA fA = glyphKey cB mB fB) :
    cA = cB ∧ mA = mB ∧ fA = fB := by
  rw [glyphKey_eq cA mA fA (by omega) hfA, glyphKey_eq cB mB fB (by omega) hfB] at hk
  cases mA with
  | false =>
    cases mB with
    | false =>
      simp only [Bool.false_eq_true, if_false] at hk
      refine ⟨by omega, rfl, by omega⟩
    | true =>
      simp only [Bool.false_eq_true, if_false, if_true] at hk
      exact absurd hk (by omega)
  | true =>
    cases mB with
    | false =>
      simp only [Bool.false_eq_true, if_false, if_true] at hk
      exact absurd hk (by omega)
    | true =>
      simp only [if_true] at hk
      refine ⟨by omega, rfl, by omega⟩

/-- Claim C8: calling getOrCreateGlyph twice with the same (codepoint,
monospace, fontSize) triple returns the identical cached glyph and leaves
the cache unchanged; the 64-bit key packing is injective on triples whose
codepoint is a Unicode code point (below 2 ^ 21) and whose fontSize fits a
u32; and from a well-formed cache a second call differing in monospace or in
fontSize for the same codepoint returns a distinct glyph entry. -/
theorem C8_glyphCache_triple (s : GlyphCache) (c c2 f f2 : Nat) (m m2 : Bool)
    (hwf : CacheWF s)
    (hc : c < 2 ^ 21) (hc2 : c2 < 2 ^ 21) (hf : f < 2 ^ 32) (hf2 : f2 < 2 ^ 32) :
    (getOrCreateGlyph (getOrCreateGlyph s c m f).2 c m f =
      ((getOrCreateGlyph s c m f).1, (getOrCreateGlyph s c m f).2)) ∧
    (glyphKey c m f = glyphKey c2 m2 f2 → c = c2 ∧ m = m2 ∧ f = f2) ∧
    ((m ≠ m2 ∨ f ≠ f2) →
      (getOrCreateGlyph (getOrCreateGlyph s c m f).2 c m2 f2).1 ≠
        (getOrCreateGlyph s c m f).1) := by
  refine ⟨?_, glyphKey_inj c c2 f f2 m m2 hc hc2 hf hf2, ?_⟩
  · cases hl : s.entries.lookup (glyphKey c m f) with
    | some g =>
      rw [gocg_hit s c m f g hl]
      rw [gocg_hit s c m f g hl]
    | none =>
      rw [gocg_miss s c m f hl]
      have hl2 : (((glyphKey c m f, s.nextId) :: s.entries).lookup
          (glyphKey c m f)) = some s.nextId := by
        rw [List.lookup]
        simp
      rw [gocg_hit _ c m f s.nextId hl2]
  · intro hne
    have hkne : glyphKey c m f ≠ glyphKey c m2 f2 := by
      intro hk
      rcases glyphKey_inj c c f f2 m m2 hc hc hf hf2 hk with ⟨_, hm, hfe⟩
      rcases hne with h | h
      · exact h hm
      · exact h hfe
    cases hl1 : s.entries.lookup (glyphKey c m f) with
    | some g1 =>
      rw [gocg_hit s c m f g1 hl1]
      cases hl2 : s.entries.lookup (glyphKey c m2 f2) with
      | some g2 =>
        rw [gocg_hit s c m2 f2 g2 hl2]
        intro hg
        have hm1 := lookup_mem hl1
        have hm2 := lookup_mem hl2
        have heq := nodup_snd_inj hwf.1 (glyphKey c m2 f2, g2) hm2
          (glyphKey c m f, g1) hm1 hg
        exact hkne (congrArg Prod.fst heq).symm
      | none =>
        rw [gocg_miss s c m2 f2 hl2]
        have hm1 := lookup_mem hl1
        have := hwf.2 _ hm1
        intro hg
        simp only at hg
        omega
    | none =>
      rw [gocg_miss s c m f hl1]
      have hstep : (((glyphKey c m f, s.nextId) :: s.entries).lookup
          (glyphKey c m2 f2)) = s.entries.lookup (glyphKey c m2 f2) := by
        rw [List.lookup]
        have hb : (glyphKey c m2 f2 == glyphKey c m f) = false :=
          beq_eq_false_iff_ne.mpr (Ne.symm hkne)
        rw [hb]
      cases hl2 : s.entries.lookup (glyphKey c m2 f2) with
      | some g2 =>
        have hl2b : (((glyphKey c m f, s.nextId) :: s.entries).lookup
            (glyphKey c m2 f2)) = some g2 := by rw [hstep, hl2]
        rw [gocg_hit _ c m2 f2 g2 hl2b]
        have := hwf.2 _ (lookup_mem hl2)
        intro hg
        simp only at hg
        omega
      | none =>
        have hl2b : (((glyphKey c m f, s.nextId) :: s.entries).lookup
            (glyphKey c m2 f2)) = none := by rw [hstep, hl2]
        rw [gocg_miss _ c m2 f2 hl2b]
        intro hg
        simp only at hg
        omega

/-- Witness for C8 on the empty cache with codepoint 65, sizes 16 and 20. -/
theorem C8_witness :
    (getOrCreateGlyph (getOrCreateGlyph ⟨[], 0⟩ 65 false 16).2 65 false 16 =
      ((getOrCreateGlyph ⟨[], 0⟩ 65 false 16).1,
       (getOrCreateGlyph ⟨[], 0⟩ 65 false 16).2)) ∧
    (glyphKey 65 false 16 = glyphKey 65 true 20 →
      (65 : Nat) = 65 ∧ false = true ∧ (16 : Nat) = 20) ∧
    ((false ≠ true ∨ (16 : Nat) ≠ 20) →
      (getOrCreateGlyph (getOrCreateGlyph ⟨[], 0⟩ 65 false 16).2 65 true 20).1 ≠
        (getOrCreateGlyph ⟨[], 0⟩ 65 false 16).1) :=
  C8_glyphCache_triple ⟨[], 0⟩ 65 65 16 20 false true
    ⟨by simp, by simp⟩ (by norm_num) (by norm_num) (by norm_num) (by norm_num)

theorem u16_u16I_add (a : Int) (n : Nat) : u16 (u16I a + n) = u16I (a + n) := by
  unfold u16 u16I
  omega

/-- Claim C4 counterexample: in the laid-out tree the first list item starts
at x = 20 (the frame insets its content by 20 from x = 0), not at x = 40 as
the claim states. -/
theorem C4_counterexample :
    firstContentItemPos ((c4Tree 70 70 70).layout 0 0 1280 720) ≠ some (40, 100) := by
  simp [c4Tree, Elem.layout, layoutItems, firstContentItemPos, u16, u16I,
    Elem.getHeight, Elem.getX, Elem.getY]

/-- Claim C4 (amended): the OverlayFrame("Title","Sub") tree with a List of
three fixed-height items, laid out against a 1280 by 720 area at origin
(0,0), draws the background and then the title at (20,50) with font size 32
and the subtitle at (20,85) with font size 15 as its first three renderer
calls, and layout places the first list item with bounds starting at
(20,100) rather than (40,100). -/
theorem C4_overlayFrame_end_to_end (h1 h2 h3 : Nat) :
    (((c4Tree h1 h2 h3).layout 0 0 1280 720).draw 1280 720).take 3 =
      [DrawCmd.rect 0 0 1280 720 ColorFrameBackground,
       DrawCmd.text "Title" false 20 50 32 ColorText,
       DrawCmd.text "Sub" false 20 85 15 ColorDescription] ∧
    firstContentItemPos ((c4Tree h1 h2 h3).layout 0 0 1280 720) = some (20, 100) := by
  constructor
  · simp [c4Tree, Elem.layout, layoutItems, Elem.draw, drawItems, u16, u16I,
      Elem.getHeight]
  · simp [c4Tree, Elem.layout, layoutItems, firstContentItemPos, u16, u16I,
      Elem.getHeight, Elem.getX, Elem.getY]

/-- Claim C7: a List with three children of fixed heights h1, h2, h3 laid
out at (x, y, w, h) with scroll offset s places the children at u16
positions y - s, y + h1 - s, y + h1 + h2 - s (in the modular u16 arithmetic
of the stored coordinate fields), each child receiving the List width and
its own height; in particular with s = 0 and no u16 overflow the positions
are exactly y, y + h1, y + h1 + h2, and with any s every position is the
s = 0 position shifted by -s. -/
theorem C7_list_layout (x y w h h1 h2 h3 : Nat) (s : Int)
    (hx : x < 65536) (hy : y < 65536) (hw : w < 65536)
    (h1b : h1 < 65536) (h2b : h2 < 65536) (h3b : h3 < 65536) :
    ((Elem.list 0 0 0 0 s [.item 0 0 0 h1, .item 0 0 0 h2, .item 0 0 0 h3]).layout
        x y w h).childBounds =
      [(x, u16I ((y : Int) - s), w, h1),
       (x, u16I ((y : Int) + h1 - s), w, h2),
       (x, u16I ((y : Int) + h1 + h2 - s), w, h3)] ∧
    (s = 0 → y + h1 + h2 < 65536 →
      ((Elem.list 0 0 0 0 s [.item 0 0 0 h1, .item 0 0 0 h2, .item 0 0 0 h3]).layout
          x y w h).childBounds =
        [(x, y, w, h1), (x, y + h1, w, h2), (x, y + h1 + h2, w, h3)]) := by
  have key : ((Elem.list 0 0 0 0 s [.item 0 0 0 h1, .item 0 0 0 h2, .item 0 0 0 h3]).layout
      x y w h).childBounds =
      [(x, u16I ((y : Int) - s), w, h1),
       (x, u16I ((y : Int) + h1 - s), w, h2),
       (x, u16I ((y : Int) + h1 + h2 - s), w, h3)] := by
    simp only [Elem.layout, layoutItems, Elem.childBounds, Elem.getHeight,
      Elem.getX, Elem.getY, Elem.getWidth, List.map, u16, u16I]
    simp only [List.cons.injEq, Prod.mk.injEq, and_true]
    omega
  refine ⟨key, ?_⟩
  intro hs hov
  rw [key]
  subst hs
  simp only [List.cons.injEq, Prod.mk.injEq, and_true, true_and]
  unfold u16I
  omega

/-- Witness for C7 at concrete bounds and heights with zero scroll. -/
theorem C7_witness :
    ((Elem.list 0 0 0 0 (0 : Int) [.item 0 0 0 70, .item 0 0 0 50, .item 0 0 0 30]).layout
        5 10 100 300).childBounds =
      [(5, 10, 100, 70), (5, 80, 100, 50), (5, 130, 100, 30)] :=
  (C7_list_layout 5 10 100 300 70 50 30 0 (by norm_num) (by norm_num) (by norm_num)
    (by norm_num) (by norm_num) (by norm_num)).2 rfl (by norm_num)

theorem gtd_height (adv : Nat → ℚ) (fontSize : Nat) :
    ∀ (fuel : Nat) (b : List Nat) (width hgt maxW : Nat),
    (getTextDimensionsAux adv fontSize fuel b width hgt maxW).2 =
      hgt + fontSize * ((codepointsAux fuel b).count 10) := by
  intro fuel
  induction fuel with
  | zero =>
    intro b w hgt mw
    simp [getTextDimensionsAux, codepointsAux]
  | succ fuel ih =>
    intro b w hgt mw
    by_cases h0 : byteAt b 0 = 0
    · simp [getTextDimensionsAux, codepointsAux, if_pos h0]
    · cases hd : decode_utf8 b with
      | none =>
        simp [getTextDimensionsAux, codepointsAux, if_neg h0, hd]
      | some p =>
        obtain ⟨cp, len⟩ := p
        by_cases hcp : cp = 10
        · subst hcp
          simp only [getTextDimensionsAux, codepointsAux, if_neg h0, hd]
          rw [if_pos trivial, ih]
          simp [List.count_cons]
          ring
        · simp only [getTextDimensionsAux, codepointsAux, if_neg h0, hd]
          rw [if_neg hcp, ih]
          simp [List.count_cons, hcp]

theorem cursor_step (x : Int) (width : Nat) (a : ℚ) (hx : 0 ≤ x) (ha : 0 ≤ a) :
    rtrunc (((x + (width : Int) : Int) : ℚ) + a) =
      x + (((⌊(width : ℚ) + a⌋).toNat : Nat) : Int) := by
  have hw : (0 : ℚ) ≤ (width : ℚ) := Nat.cast_nonneg width
  have hxq : (0 : ℚ) ≤ ((x : ℚ)) := by exact_mod_cast hx
  have hnn : (0 : ℚ) ≤ ((x + (width : Int) : Int) : ℚ) + a := by
    push_cast
    linarith
  unfold rtrunc
  rw [if_neg (not_lt.mpr hnn)]
  have h1 : ((x + (width : Int) : Int) : ℚ) + a = ((x : ℚ)) + ((width : ℚ) + a) := by
    push_cast
    ring
  rw [h1]
  have h2 : ((x : ℚ)) = (((x : Int) : ℚ)) := rfl
  rw [h2, Int.floor_int_add]
  have h3 : 0 ≤ ⌊(width : ℚ) + a⌋ := by
    apply Int.le_floor.mpr
    push_cast
    linarith
  rw [Int.toNat_of_nonneg h3]

theorem gtd_width (adv : Nat → ℚ) (fontSize : Nat) (x : Int)
    (hadv : ∀ cp, 0 ≤ adv cp) (hx : 0 ≤ x) :
    ∀ (fuel : Nat) (b : List Nat) (width maxW hgt : Nat),
    ((getTextDimensionsAux adv fontSize fuel b width hgt maxW).1 : Int) =
      ((drawStringAux adv x fuel b (x + (width : Int))).map (fun e => e - x)).foldl
        max (maxW : Int) := by
  intro fuel
  induction fuel with
  | zero =>
    intro b w mw hgt
    simp only [getTextDimensionsAux, drawStringAux, List.map, List.foldl]
    push_cast
    omega
  | succ fuel ih =>
    intro b w mw hgt
    by_cases h0 : byteAt b 0 = 0
    · simp only [getTextDimensionsAux, drawStringAux, if_pos h0, List.map, List.foldl]
      push_cast
      omega
    · cases hd : decode_utf8 b with
      | none =>
        simp only [getTextDimensionsAux, drawStringAux, if_neg h0, hd, List.map,
          List.foldl]
        push_cast
        omega
      | some p =>
        obtain ⟨cp, len⟩ := p
        by_cases hcp : cp = 10
        · subst hcp
          simp only [getTextDimensionsAux, drawStringAux, if_neg h0, hd]
          rw [if_pos trivial, if_pos trivial]
          rw [ih]
          simp only [List.map, List.foldl]
          have e1 : x + ((0 : Nat) : Int) = x := by simp
          rw [e1]
          congr 1
          push_cast
          omega
        · simp only [getTextDimensionsAux, drawStringAux, if_neg h0, hd]
          rw [if_neg hcp, if_neg hcp, cursor_step x w (adv cp) hx (hadv cp)]
          exact ih _ _ _ _

/-- Claim C3: getTextDimensions returns height fontSize + fontSize times
the number of newline code points in the successfully decoded prefix of the
text, and a width equal to the maximum per-line cumulative advance, which
agrees exactly with the horizontal cursor displacement drawString
accumulates on each line: the same UTF-8 decode with early stop, the same
per glyph truncated advance, the same newline handling. Glyph advances are
the xAdvance values, abstract nonnegative rationals; the drawString start
position x is an arbitrary nonnegative cursor origin. -/
theorem C3_getTextDimensions_matches_drawString (adv : Nat → ℚ) (fontSize : Nat)
    (b : List Nat) (x : Int) (hadv : ∀ cp, 0 ≤ adv cp) (hx : 0 ≤ x) :
    (getTextDimensions adv fontSize b).2 =
      fontSize + fontSize * ((codepoints b).count 10) ∧
    ((getTextDimensions adv fontSize b).1 : Int) =
      ((drawStringLineEnds adv x b).map (fun e => e - x)).foldl max 0 := by
  constructor
  · unfold getTextDimensions codepoints
    rw [gtd_height]
  · unfold getTextDimensions drawStringLineEnds
    have h := gtd_width adv fontSize x hadv hx (b.length + 1) b 0 0 fontSize
    simpa using h

/-- Witness for C3 on the text "A", newline, "BC" with advance 3/2 and
start x = 5: dimensions (2, 32) and line displacements [1, 2]. -/
theorem C3_witness :
    (getTextDimensions (fun _ => (3 : ℚ)/2) 16 [65, 10, 66, 67]).2 =
      16 + 16 * ((codepoints [65, 10, 66, 67]).count 10) ∧
    ((getTextDimensions (fun _ => (3 : ℚ)/2) 16 [65, 10, 66, 67]).1 : Int) =
      ((drawStringLineEnds (fun _ => (3 : ℚ)/2) 5 [65, 10, 66, 67]).map
        (fun e => e - 5)).foldl max 0 :=
  C3_getTextDimensions_matches_drawString (fun _ => (3 : ℚ)/2) 16 [65, 10, 66, 67] 5
    (fun _ => by norm_num) (by norm_num)
